import Mathlib

/-!
Verification of the Sandboxed API interface-header generator
(`sandboxed_api/tools/generator2/code.py`) against its natural-language
specification.  Strings are modelled as `List Char`; Python string
operations (`split`, `in`, `endswith`, `replace`, `upper`) are embedded
faithfully, including Python's left-to-right non-overlapping scan.
-/

namespace SapiGen

/-- First-occurrence search: returns `some (before, after)` when `pat`
occurs in `s`, splitting at the first occurrence (Python's scan order). -/
def splitFirstAux (pat : List Char) : List Char → Option (List Char × List Char)
  | [] => none
  | c :: cs =>
    if pat.isPrefixOf (c :: cs) then some ([], cs.drop (pat.length - 1))
    else (splitFirstAux pat cs).map (fun p => (c :: p.1, p.2))

/-- Python's `sub in s` substring test. -/
def pyContains (pat s : List Char) : Bool :=
  pat.isEmpty || (splitFirstAux pat s).isSome

/-- Fuelled worker for Python `str.split` with a non-empty separator:
left-to-right non-overlapping splitting. -/
def pySplitGo (pat : List Char) : Nat → List Char → List (List Char)
  | 0, s => [s]
  | fuel + 1, s =>
    match splitFirstAux pat s with
    | none => [s]
    | some (b, a) => b :: pySplitGo pat fuel a

/-- Python `s.split(sep)` for non-empty `sep` (the generator only ever
splits on non-empty literals). -/
def pySplit (pat s : List Char) : List (List Char) :=
  if pat.isEmpty then [s] else pySplitGo pat s.length s

/-- Join a list of strings with a separator (Python `sep.join`). -/
def catSep (sep : List Char) : List (List Char) → List Char
  | [] => []
  | [x] => x
  | x :: y :: rest => x ++ sep ++ catSep sep (y :: rest)

/-- Python `s.replace(old, new)` for non-empty `old`. -/
def pyReplace (old new s : List Char) : List Char :=
  catSep new (pySplit old s)

/-- Python `s.endswith(suffix)`. -/
def pyEndsWith (suf s : List Char) : Bool :=
  suf.reverse.isPrefixOf s.reverse

/-- The prefix-normalisation step of `Function.get_include_path`: append a
`'/'` when the prefix is non-empty and does not end in one. -/
def ensureSlash (pre : List Char) : List Char :=
  if pre ≠ [] ∧ pyEndsWith ['/'] pre = false then pre ++ ['/'] else pre

/-- Python `Function.get_include_path`, embedded from the source: empty prefix
returns the absolute path; a prefix occurring in the path returns
`prefix + path.split(prefix)[-1]`; otherwise `prefix + path.split('/')[-1]`. -/
def get_include_path (absPath pre : List Char) : List Char :=
  let p := ensureSlash pre
  if p = [] then absPath
  else if pyContains p absPath then p ++ (pySplit p absPath).getLastD []
  else p ++ (pySplit ['/'] absPath).getLastD []

/-- Modelled from the claim's words (not the source): the variant of
include-path resolution that takes the suffix after the *first*
occurrence of the prefix, and the basename as suffix after the last
`'/'`. -/
def includePathFirstOcc (absPath pre : List Char) : List Char :=
  let p := ensureSlash pre
  if p = [] then absPath
  else if pyContains p absPath then
    p ++ (match splitFirstAux p absPath with
          | some q => q.2
          | none => absPath)
  else p ++ (absPath.reverse.takeWhile (fun c => c ≠ '/')).reverse

/-- The part of `s` strictly after the first occurrence of `pat`
(`s` itself when there is none). -/
def afterFirst (pat s : List Char) : List Char :=
  match splitFirstAux pat s with
  | some q => q.2
  | none => s

/-- The part of `s` strictly before the first occurrence of `pat`
(`s` itself when there is none). -/
def beforeFirst (pat s : List Char) : List Char :=
  match splitFirstAux pat s with
  | some q => q.1
  | none => s

/-- The literal `'genfiles/'` used by `get_header_guard`. -/
def genfilesSep : List Char := "genfiles/".toList

/-- The literal `'.gen'` used by `get_header_guard`. -/
def dotGen : List Char := ".gen".toList

/-- The final normalisation of `get_header_guard`: upper-case, replace
`.`, `-`, `/` by `_` (in that order, as the code chains `replace`), and
append a trailing `_`. -/
def guardFinalize (s : List Char) : List Char :=
  pyReplace ['/'] ['_'] (pyReplace ['-'] ['_'] (pyReplace ['.'] ['_'] (s.map Char.toUpper))) ++ ['_']

/-- Python `get_header_guard`, embedded from the source: raises (`none`) on an
empty path; takes `path.split('genfiles/')[1]` when `'genfiles/'` occurs;
takes `path.split('.gen')[0]` when the result ends with `'.gen'`; then
normalises. -/
def get_header_guard (path : List Char) : Option (List Char) :=
  if path = [] then none
  else
    let p1 := if pyContains genfilesSep path
              then (pySplit genfilesSep path).getD 1 []
              else path
    let p2 := if pyEndsWith dotGen p1
              then (pySplit dotGen p1).getD 0 []
              else p1
    some (guardFinalize p2)

/-- Modelled from the claim's words (not the source): drop the prefix of
the path up to and including the first `'genfiles/'`, drop a trailing
`'.gen'` suffix when present, then normalise. -/
def headerGuardClaim (path : List Char) : Option (List Char) :=
  if path = [] then none
  else
    let p1 := if pyContains genfilesSep path then afterFirst genfilesSep path else path
    let p2 := if pyEndsWith dotGen p1 then p1.take (p1.length - 4) else p1
    some (guardFinalize p2)

/-- The amended specification of `get_header_guard`: when `'genfiles/'`
occurs, keep the segment strictly between its first and second
occurrences (the whole remainder when it occurs once); when the result
ends with `'.gen'`, keep the part strictly before the first occurrence
of `'.gen'`; then normalise. -/
def headerGuardAmended (path : List Char) : Option (List Char) :=
  if path = [] then none
  else
    let p1 := if pyContains genfilesSep path
              then (let r := afterFirst genfilesSep path
                    if pyContains genfilesSep r then beforeFirst genfilesSep r else r)
              else path
    let p2 := if pyEndsWith dotGen p1 then beforeFirst dotGen p1 else p1
    some (guardFinalize p2)

/-- Python `ReturnType.__str__`, embedded from the source: compute the spelling
with every `'const'` substring removed, build `absl::StatusOr<...>`, and
return `absl::Status` instead when the wrapped type is void. -/
def ReturnType_str (spelling : List Char) (isVoid : Bool) : List Char :=
  let sp := pyReplace "const".toList [] spelling
  let rt := "absl::StatusOr<".toList ++ sp ++ ">".toList
  if isVoid then "absl::Status".toList else rt

/-- Modelled from the claim's words (not the source): remove occurrences
of `pat` by a direct left-to-right scan that skips each match. -/
def stripSubstr (pat : List Char) : List Char → List Char
  | [] => []
  | c :: cs =>
    if pat.isPrefixOf (c :: cs) then stripSubstr pat (cs.drop (pat.length - 1))
    else c :: stripSubstr pat cs
termination_by s => s.length
decreasing_by
  · simp only [List.length_drop, List.length_cons]
    omega
  · simp only [List.length_cons]
    omega

/-- Modelled from the claim's words (not the source): `absl::Status` for
void, else `absl::StatusOr<S>` with `S` the spelling with `const`
stripped. -/
def returnTypeSpec (spelling : List Char) (isVoid : Bool) : List Char :=
  if isVoid then "absl::Status".toList
  else "absl::StatusOr<".toList ++ stripSubstr "const".toList spelling ++ ">".toList

/-- The fields of `ArgumentType` used by its call-site and declaration
rendering: whether the canonical type kind is a pointer, the clang
spelling, the parameter's own spelling (possibly absent or empty), and
the argument position. -/
structure ArgumentTypeM where
  isSugaredPtr : Bool
  spelling : List Char
  givenName : Option (List Char)
  pos : Nat

/-- Python `ArgumentType.__init__` name synthesis: `name or 'a{pos}'`. -/
def synthName (given : Option (List Char)) (pos : Nat) : List Char :=
  match given with
  | some n => if n = [] then 'a' :: Nat.toDigits 10 pos else n
  | none => 'a' :: Nat.toDigits 10 pos

/-- Python `ArgumentType.call_argument`, embedded from the source:
`'{}'` for sugared pointers, `'&{}_'` otherwise. -/
def call_argument (a : ArgumentTypeM) : List Char :=
  if a.isSugaredPtr then synthName a.givenName a.pos
  else '&' :: (synthName a.givenName a.pos ++ ['_'])

/-- Python `ArgumentType.__str__`, embedded from the source. -/
def ArgumentType_str (a : ArgumentTypeM) : List Char :=
  if a.isSugaredPtr then "::sapi::v::Ptr* ".toList ++ synthName a.givenName a.pos
  else a.spelling ++ [' '] ++ synthName a.givenName a.pos

/-- The clang type kinds distinguished by `mapped_type` and
`TYPE_MAPPING` (`complex` stands for any further scalar kind that the
mapping table does not know). -/
inductive TypeKind where
  | void | char_s | char_u | int | uint | long | ulong | uchar | ushort | short
  | longlong | ulonglong | float | double | longdouble | schar | bool
  | typedef | elaborated | enum | constantarray | incompletearray
  | lvalueref | rvalueref | record | pointer | functionproto | complex
deriving DecidableEq

/-- The fixed scalar mapping table `TYPE_MAPPING` from the source. -/
def TYPE_MAPPING : TypeKind → Option (List Char)
  | .void => some "::sapi::v::Void".toList
  | .char_s => some "::sapi::v::Char".toList
  | .char_u => some "::sapi::v::Char".toList
  | .int => some "::sapi::v::Int".toList
  | .uint => some "::sapi::v::UInt".toList
  | .long => some "::sapi::v::Long".toList
  | .ulong => some "::sapi::v::ULong".toList
  | .uchar => some "::sapi::v::UChar".toList
  | .ushort => some "::sapi::v::UShort".toList
  | .short => some "::sapi::v::Short".toList
  | .longlong => some "::sapi::v::LLong".toList
  | .ulonglong => some "::sapi::v::ULLong".toList
  | .float => some "::sapi::v::Reg<float>".toList
  | .double => some "::sapi::v::Reg<double>".toList
  | .longdouble => some "::sapi::v::Reg<long double>".toList
  | .schar => some "::sapi::v::SChar".toList
  | .bool => some "::sapi::v::Bool".toList
  | _ => none

/-- A clang type as used by `mapped_type`: its kind, spelling, and (when
distinct from itself) its canonical type. -/
inductive CType where
  | mk (kind : TypeKind) (spelling : List Char) (canon : Option CType)

def CType.kind : CType → TypeKind
  | ⟨k, _, _⟩ => k

def CType.spelling : CType → List Char
  | ⟨_, s, _⟩ => s

/-- Python `cindex.Type.get_canonical`: the stored canonical type, or the type
itself when it is its own canonical form. -/
def getCanonical : CType → CType
  | ⟨k, s, none⟩ => ⟨k, s, none⟩
  | ⟨_, _, some c⟩ => c

/-- Python `Type.is_sugared_ptr`: the canonical kind is a pointer. -/
def isSugaredPtr (t : CType) : Bool :=
  decide ((getCanonical t).kind = TypeKind.pointer)

/-- The typedef/elaborated peeling performed at the top of
`mapped_type`. -/
def peel (t : CType) : CType :=
  let t1 := if t.kind = TypeKind.typedef then getCanonical t else t
  if t1.kind = TypeKind.elaborated then getCanonical t1 else t1

/-- Decimal rendering of the argument position used in error messages. -/
def natDigits (n : Nat) : List Char := Nat.toDigits 10 n

/-- Printable name of a type kind, used in the `KeyError` message. -/
def kindName (k : TypeKind) : List Char :=
  match k with
  | .void => "TypeKind.VOID".toList
  | .char_s => "TypeKind.CHAR_S".toList
  | .char_u => "TypeKind.CHAR_U".toList
  | .int => "TypeKind.INT".toList
  | .uint => "TypeKind.UINT".toList
  | .long => "TypeKind.LONG".toList
  | .ulong => "TypeKind.ULONG".toList
  | .uchar => "TypeKind.UCHAR".toList
  | .ushort => "TypeKind.USHORT".toList
  | .short => "TypeKind.SHORT".toList
  | .longlong => "TypeKind.LONGLONG".toList
  | .ulonglong => "TypeKind.ULONGLONG".toList
  | .float => "TypeKind.FLOAT".toList
  | .double => "TypeKind.DOUBLE".toList
  | .longdouble => "TypeKind.LONGDOUBLE".toList
  | .schar => "TypeKind.SCHAR".toList
  | .bool => "TypeKind.BOOL".toList
  | .typedef => "TypeKind.TYPEDEF".toList
  | .elaborated => "TypeKind.ELABORATED".toList
  | .enum => "TypeKind.ENUM".toList
  | .constantarray => "TypeKind.CONSTANTARRAY".toList
  | .incompletearray => "TypeKind.INCOMPLETEARRAY".toList
  | .lvalueref => "TypeKind.LVALUEREFERENCE".toList
  | .rvalueref => "TypeKind.RVALUEREFERENCE".toList
  | .record => "TypeKind.RECORD".toList
  | .pointer => "TypeKind.POINTER".toList
  | .functionproto => "TypeKind.FUNCTIONPROTO".toList
  | .complex => "TypeKind.COMPLEX".toList

/-- The `function {}, arg {}, type {}, location {}` tail shared by both
`mapped_type` error messages. -/
def argErrSuffix (fname : List Char) (pos : Nat) (sp loc : List Char) : List Char :=
  fname ++ ", arg ".toList ++ natDigits pos ++ ", type ".toList ++ sp ++
    ", location ".toList ++ loc

/-- The `ValueError` message raised for record-by-value arguments. -/
def unsupportedMsg (fname : List Char) (pos : Nat) (sp loc : List Char) : List Char :=
  "Elaborate type (eg. struct) in mapped_type is not supported: function ".toList ++
    argErrSuffix fname pos sp loc

/-- The `KeyError` message raised for kinds missing from
`TYPE_MAPPING`. -/
def keyErrorMsg (k : TypeKind) (fname : List Char) (pos : Nat) (sp loc : List Char) :
    List Char :=
  "Key ".toList ++ kindName k ++ " does not exist in TYPE_MAPPING. function ".toList ++
    argErrSuffix fname pos sp loc

/-- Python `ArgumentType.mapped_type`, embedded from the source; a raised
exception is modelled as `.error` carrying the message. -/
def mapped_type (fname : List Char) (pos : Nat) (loc : List Char) (t : CType) :
    Except (List Char) (List Char) :=
  if isSugaredPtr t then
    .ok ("::sapi::v::Reg<".toList ++ pyReplace "const".toList [] t.spelling ++ ">".toList)
  else
    let t2 := peel t
    if t2.kind = TypeKind.enum then
      .ok ("::sapi::v::IntBase<".toList ++ t.spelling ++ ">".toList)
    else if t2.kind = TypeKind.constantarray ∨ t2.kind = TypeKind.incompletearray then
      .ok ("::sapi::v::Reg<".toList ++ t.spelling ++ ">".toList)
    else if t2.kind = TypeKind.lvalueref then
      .ok "LVALUEREFERENCE::NOT_SUPPORTED".toList
    else if t2.kind = TypeKind.rvalueref then
      .ok "RVALUEREFERENCE::NOT_SUPPORTED".toList
    else if t2.kind = TypeKind.record ∨ t2.kind = TypeKind.elaborated then
      .error (unsupportedMsg fname pos t.spelling loc)
    else
      match TYPE_MAPPING t2.kind with
      | none => .error (keyErrorMsg t2.kind fname pos t.spelling loc)
      | some m => .ok m

/-- The kinds that `mapped_type` handles by dedicated branches before
falling through to the scalar table. -/
def specialKinds : List TypeKind :=
  [TypeKind.enum, TypeKind.constantarray, TypeKind.incompletearray,
    TypeKind.lvalueref, TypeKind.rvalueref, TypeKind.record, TypeKind.elaborated]

/-- The fields of `Function` used by the generator's selection logic:
`cursor.spelling` (also the function's `name`), `cursor.mangled_name`
(the `__eq__` key), and `cursor.get_usr()` (the `__hash__` key). -/
structure FnM where
  spelling : List Char
  mangled : List Char
  usr : List Char
deriving DecidableEq

/-- Python `Function.is_mangled`: the mangled name differs from the spelling. -/
def is_mangled (f : FnM) : Bool :=
  decide (f.mangled ≠ f.spelling)

/-- The per-translation-unit name filter of `Generator._get_functions`:
keep `f` when the name list is empty or contains `f.name`. -/
def filterByNames (names : List (List Char)) (fs : List FnM) : List FnM :=
  fs.filter (fun f => names.isEmpty || names.contains f.spelling)

/-- Python `list(set(...))` on `Function`s: drop later duplicates of the
`__eq__` key (the mangled name). -/
def dedupByMangled (seen : List (List Char)) : List FnM → List FnM
  | [] => []
  | f :: fs =>
    if f.mangled ∈ seen then dedupByMangled seen fs
    else f :: dedupByMangled (f.mangled :: seen) fs

/-- Lexicographic string order used for `sort(key=lambda x: x.name)`. -/
def strLe : List Char → List Char → Bool
  | [], _ => true
  | _ :: _, [] => false
  | a :: as, b :: bs => if a = b then strLe as bs else decide (a < b)

/-- The name sort at the end of `Generator._get_functions`. -/
def sortByName (fs : List FnM) : List FnM :=
  List.insertionSort (fun f g => strLe f.spelling g.spelling = true) fs

/-- Python `Generator._get_functions` without the memoisation: concatenate the
name-filtered functions of every translation unit, drop mangled ones,
remove duplicates, and sort by name. -/
def _get_functions (tus : List (List FnM)) (names : List (List Char)) : List FnM :=
  sortByName (dedupByMangled []
    (((tus.map (filterByNames names)).flatten).filter (fun f => !is_mangled f)))

/-- The mutable state of a `Generator` that `_get_functions` touches:
the `functions` cache and the translation units. -/
structure GeneratorState where
  functions : Option (List FnM)
  tus : List (List FnM)

/-- Python `Generator._get_functions` with its cache: return the cached list
when present, else compute, store and return it. -/
def generator_get_functions (g : GeneratorState) (names : List (List Char)) :
    List FnM × GeneratorState :=
  match g.functions with
  | some fs => (fs, g)
  | none =>
    let fs := _get_functions g.tus names
    (fs, { g with functions := some fs })

/-- The fields of `Type` used by `_get_related_types`: the USR of its
declaration (the `__eq__`/`__hash__` key) and the visitation index used
by `__lt__`. -/
structure TyM where
  usr : List Char
  ord : Nat
deriving DecidableEq

/-- A Python `set` of `Type`s as a list: drop later USR duplicates. -/
def dedupTy (seen : List (List Char)) : List TyM → List TyM
  | [] => []
  | t :: ts =>
    if t.usr ∈ seen then dedupTy seen ts
    else t :: dedupTy (t.usr :: seen) ts

/-- Python `sorted(...)` over types of one translation unit (`Type.__lt__`
compares visitation indices). -/
def sortByOrd (ts : List TyM) : List TyM :=
  List.insertionSort (fun a b => a.ord ≤ b.ord) ts

/-- The accumulation loop of `Generator._get_related_types`: for each
function's related-type set, sort and append the ones not yet processed,
then mark the whole set as processed. -/
def grtLoop (processed : List (List Char)) : List (List TyM) → List TyM
  | [] => []
  | rel :: rest =>
    sortByOrd ((dedupTy [] rel).filter (fun t => !processed.contains t.usr)) ++
      grtLoop ((dedupTy [] rel).map TyM.usr ++ processed) rest

/-- Python `Generator._get_related_types`: the loop above followed by the
`types_to_skip` filter. -/
def _get_related_types (fns : List (List TyM)) (skips : List (List Char)) : List TyM :=
  (grtLoop [] fns).filter (fun t => !skips.contains t.usr)

/-- Python `_TranslationUnit.search_for_macro_name`, embedded from the source,
returning the names newly added to `required_defines` (in insertion
order).  `defs` is the TU's `defines` map (macro name → token spellings
of its definition cursor), `state` the current `required_defines`.  For
each token that is a known macro name and not yet in the state, the name
is added and the search recurses into that macro's definition tokens.
Totality (the code's termination) is by well-founded recursion: each
recursive step either consumes a token or strictly shrinks the set of
macro names not yet required. -/
def searchMacros (defs : List (List Char × List (List Char))) :
    List (List Char) → List (List Char) → List (List Char)
  | state, [] => []
  | state, tok :: toks =>
    match h : List.lookup tok defs with
    | none => searchMacros defs state toks
    | some body =>
      if hmem : tok ∈ state then searchMacros defs state toks
      else
        tok :: searchMacros defs (tok :: state) body ++
          searchMacros defs (searchMacros defs (tok :: state) body ++ tok :: state) toks
termination_by state toks =>
  (((defs.map Prod.fst).filter (fun k => decide (k ∉ state))).length, toks.length)
decreasing_by
  · apply Prod.Lex.right
    simp
  · apply Prod.Lex.right
    simp
  · have key : ∀ s2 : List (List Char), (∀ x, x ∈ state → x ∈ s2) → tok ∈ s2 →
        ((defs.map Prod.fst).filter (fun k => decide (k ∉ s2))).length <
          ((defs.map Prod.fst).filter (fun k => decide (k ∉ state))).length := by
      intro s2 hsub htok
      have hk : tok ∈ defs.map Prod.fst := by
        have h2 : (List.lookup tok defs).isSome := by rw [h]; rfl
        rw [List.lookup_isSome_iff] at h2
        obtain ⟨p, hp, he⟩ := h2
        have he' : tok = p.1 := by simpa using he
        rw [he']
        exact List.mem_map_of_mem Prod.fst hp
      have hsl := @List.monotone_filter_right _ (defs.map Prod.fst)
        (fun k => decide (k ∉ s2)) (fun k => decide (k ∉ state))
        (by
          intro a ha
          rw [decide_eq_true_eq] at ha ⊢
          exact fun hc => ha (hsub a hc))
      have hmt : tok ∈ (defs.map Prod.fst).filter (fun k => decide (k ∉ state)) :=
        List.mem_filter.mpr ⟨hk, by simpa using hmem⟩
      have hnt : tok ∉ (defs.map Prod.fst).filter (fun k => decide (k ∉ s2)) := by
        intro hcon
        have h2 := (List.mem_filter.mp hcon).2
        rw [decide_eq_true_eq] at h2
        exact h2 htok
      rcases Nat.eq_or_lt_of_le hsl.length_le with heq | hlt
      · exact absurd (hsl.eq_of_length heq ▸ hmt) hnt
      · exact hlt
    apply Prod.Lex.left
    exact key _ (fun x hx => List.mem_cons_of_mem _ hx) (List.mem_cons_self _ _)
  · have key : ∀ s2 : List (List Char), (∀ x, x ∈ state → x ∈ s2) → tok ∈ s2 →
        ((defs.map Prod.fst).filter (fun k => decide (k ∉ s2))).length <
          ((defs.map Prod.fst).filter (fun k => decide (k ∉ state))).length := by
      intro s2 hsub htok
      have hk : tok ∈ defs.map Prod.fst := by
        have h2 : (List.lookup tok defs).isSome := by rw [h]; rfl
        rw [List.lookup_isSome_iff] at h2
        obtain ⟨p, hp, he⟩ := h2
        have he' : tok = p.1 := by simpa using he
        rw [he']
        exact List.mem_map_of_mem Prod.fst hp
      have hsl := @List.monotone_filter_right _ (defs.map Prod.fst)
        (fun k => decide (k ∉ s2)) (fun k => decide (k ∉ state))
        (by
          intro a ha
          rw [decide_eq_true_eq] at ha ⊢
          exact fun hc => ha (hsub a hc))
      have hmt : tok ∈ (defs.map Prod.fst).filter (fun k => decide (k ∉ state)) :=
        List.mem_filter.mpr ⟨hk, by simpa using hmem⟩
      have hnt : tok ∉ (defs.map Prod.fst).filter (fun k => decide (k ∉ s2)) := by
        intro hcon
        have h2 := (List.mem_filter.mp hcon).2
        rw [decide_eq_true_eq] at h2
        exact h2 htok
      rcases Nat.eq_or_lt_of_le hsl.length_le with heq | hlt
      · exact absurd (hsl.eq_of_length heq ▸ hmt) hnt
      · exact hlt
    apply Prod.Lex.left
    exact key _ (fun x hx => List.mem_append_right _ (List.mem_cons_of_mem _ hx))
      (List.mem_append_right _ (List.mem_cons_self _ _))

/-- The new `required_defines` state after
`search_for_macro_name`: the added names together with the previous
state. -/
def runSearch (defs : List (List Char × List (List Char)))
    (state toks : List (List Char)) : List (List Char) :=
  searchMacros defs state toks ++ state

/-- A clang token as consumed by `_stringify_tokens`: its source line
and its spelling. -/
structure Tok where
  line : Nat
  spelling : List Char
deriving DecidableEq

/-- The mutable state of an `OutputLine`: the accumulated spelling
pieces (tokens and inserted separators), the preprocessor flag, and the
current and next indentation levels. -/
structure OutputLineState where
  spellings : List (List Char)
  define : Bool
  tab : Int
  next_tab : Int
deriving DecidableEq

/-- Python `OutputLine._process_token`, embedded from the source: `#` marks the
line as preprocessor, `{` bumps `next_tab`, `}` drops both `tab` and
`next_tab`; then a space is appended unless the buffer is empty, the
token is `(`, or the buffer holds exactly a leading `#` (the code's
`len(spellings) == 1 and spellings[0] == '#'`, i.e. the buffer is
`['#']`); finally the token's spelling is appended. -/
def processToken (st : OutputLineState) (s : List Char) : OutputLineState :=
  let st1 :=
    if s = ['#'] then { st with define := true }
    else if s = ['{'] then { st with next_tab := st.next_tab + 1 }
    else if s = ['}'] then { st with tab := st.tab - 1, next_tab := st.next_tab - 1 }
    else st
  let st2 :=
    if st1.spellings ≠ [] ∧ s ≠ ['('] ∧ st1.spellings ≠ [['#']]
    then { st1 with spellings := st1.spellings ++ [[' ']] }
    else st1
  { st2 with spellings := st2.spellings ++ [s] }

/-- Python `OutputLine.__init__`: process every token of the line starting from
the inherited tab. -/
def mkOutputLine (tab : Int) (tokens : List Tok) : OutputLineState :=
  (tokens.map Tok.spelling).foldl processToken ⟨[], false, tab, tab⟩

/-- Python `'\t' * tab` (empty for negative counts, as in Python). -/
def tabs (n : Int) : List Char := List.replicate n.toNat '\t'

/-- Python `OutputLine.__str__`: tabs (suppressed on preprocessor lines)
followed by the concatenated spelling pieces. -/
def OutputLine_str (st : OutputLineState) : List Char :=
  (if st.define then [] else tabs st.tab) ++ st.spellings.flatten

/-- Python `itertools.groupby(tokens, key=line)`: group adjacent tokens with
equal source line. -/
def groupAdj : List Tok → List (List Tok)
  | [] => []
  | t :: ts =>
    match groupAdj ts with
    | [] => [[t]]
    | [] :: gs => [t] :: [] :: gs
    | (u :: g) :: gs =>
      if t.line = u.line then (t :: u :: g) :: gs else [t] :: (u :: g) :: gs

/-- The per-line loop of `_stringify_tokens`: each line starts at the
previous line's `next_tab` (initially 0). -/
def stringifyLines (tab : Int) : List (List Tok) → List (List Char)
  | [] => []
  | g :: gs =>
    OutputLine_str (mkOutputLine tab g) :: stringifyLines (mkOutputLine tab g).next_tab gs

/-- Python `_stringify_tokens`, embedded from the source. -/
def _stringify_tokens (sep : List Char) (tokens : List Tok) : List Char :=
  catSep sep (stringifyLines 0 (groupAdj tokens))

/-- Modelled from the claim's words (not the source): join spellings
with single spaces, except no space before `(` and no space after a
leading `#`. -/
def specJoinRest (noSpace : Bool) : List (List Char) → List Char
  | [] => []
  | y :: rest =>
    (if y = ['('] ∨ noSpace = true then [] else [' ']) ++ y ++ specJoinRest false rest

/-- Modelled from the claim's words (not the source): the rendered text
of one line's spellings. -/
def specJoin : List (List Char) → List Char
  | [] => []
  | x :: rest => x ++ specJoinRest (decide (x = ['#'])) rest

/-- Number of occurrences of a given spelling in a line. -/
def countTok (x : List Char) (sps : List (List Char)) : Nat :=
  (sps.filter (fun s => s = x)).length

/-- Modelled from the claim's words: a line renders as `tab` tabs
(suppressed for preprocessor lines, with each `}` having decremented the
tab) followed by the joined spellings. -/
def specLineRender (tab : Int) (sps : List (List Char)) : List Char :=
  (if ['#'] ∈ sps then [] else tabs (tab - countTok ['}'] sps)) ++ specJoin sps

/-- Modelled from the claim's words: the next line's starting tab,
incremented by each `{` and decremented by each `}`. -/
def specNextTab (tab : Int) (sps : List (List Char)) : Int :=
  tab + countTok ['{'] sps - countTok ['}'] sps

/-- The claim's per-line loop. -/
def specLines (tab : Int) : List (List Tok) → List (List Char)
  | [] => []
  | g :: gs =>
    specLineRender tab (g.map Tok.spelling) ::
      specLines (specNextTab tab (g.map Tok.spelling)) gs

/-- The claim's version of `_stringify_tokens`. -/
def specStringify (sep : List Char) (tokens : List Tok) : List Char :=
  catSep sep (specLines 0 (groupAdj tokens))

/-! ### Lemmas about the Python string-operation embedding -/

theorem isEmpty_false_of_ne_nil {pat : List Char} (h : pat ≠ []) : pat.isEmpty = false := by
  cases pat with
  | nil => exact absurd rfl h
  | cons c cs => rfl

theorem eq_nil_of_len_le_zero {s : List Char} (h : s.length ≤ 0) : s = [] := by
  cases s with
  | nil => rfl
  | cons c cs => simp at h

theorem sfa_nil (pat : List Char) : splitFirstAux pat [] = none := rfl

theorem sfa_join {pat s b a : List Char} (hpat : pat ≠ [])
    (h : splitFirstAux pat s = some (b, a)) : s = b ++ pat ++ a := by
  induction s generalizing b a with
  | nil => rw [sfa_nil] at h; exact Option.noConfusion h
  | cons c cs ih =>
    rw [splitFirstAux] at h
    by_cases hp : pat.isPrefixOf (c :: cs)
    · rw [if_pos hp] at h
      simp only [Option.some.injEq, Prod.mk.injEq] at h
      obtain ⟨hb, ha⟩ := h
      subst hb; subst ha
      rw [ List.isPrefixOf_iff_prefix] at hp
      obtain ⟨t, ht⟩ := hp
      have hlen : pat.length - 1 + 1 = pat.length :=
        Nat.succ_pred_eq_of_pos (List.length_pos.mpr hpat)
      have hdrop : cs.drop (pat.length - 1) = t := by
        have h1 : (c :: cs).drop pat.length = cs.drop (pat.length - 1) := by
          conv_lhs => rw [← hlen]
          rfl
        rw [← h1, ← ht, List.drop_left]
      rw [List.nil_append, hdrop]
      exact ht.symm
    · rw [if_neg hp] at h
      obtain ⟨⟨b', a'⟩, hrec, heq⟩ := Option.map_eq_some'.mp h
      simp only [Prod.mk.injEq] at heq
      obtain ⟨hb, ha⟩ := heq
      subst hb; subst ha
      have hcs := ih hrec
      rw [List.cons_append, List.cons_append, ← hcs]

theorem sfa_shrink {pat s b a : List Char} (hpat : pat ≠ [])
    (h : splitFirstAux pat s = some (b, a)) : a.length < s.length := by
  have hj := sfa_join hpat h
  rw [hj]
  simp only [List.length_append]
  have : 0 < pat.length := List.length_pos.mpr hpat
  omega

theorem sfa_isSome_of_decomp {pat : List Char} (hpat : pat ≠ []) :
    ∀ u v s : List Char, s = u ++ pat ++ v → (splitFirstAux pat s).isSome = true := by
  intro u
  induction u with
  | nil =>
    intro v s hs
    obtain ⟨p, ps, rfl⟩ : ∃ p ps, pat = p :: ps := by
      cases pat with
      | nil => exact absurd rfl hpat
      | cons p ps => exact ⟨p, ps, rfl⟩
    subst hs
    rw [List.nil_append, List.cons_append, splitFirstAux]
    have hp : (p :: ps).isPrefixOf (p :: (ps ++ v)) := by
      rw [ List.isPrefixOf_iff_prefix]
      exact ⟨v, by simp⟩
    rw [if_pos hp]
    rfl
  | cons c u' ih =>
    intro v s hs
    subst hs
    rw [List.cons_append, List.cons_append, splitFirstAux]
    by_cases hp : pat.isPrefixOf (c :: (u' ++ pat ++ v))
    · rw [if_pos hp]
      rfl
    · rw [if_neg hp]
      have hrec := ih v (u' ++ pat ++ v) rfl
      obtain ⟨q, hq⟩ := Option.isSome_iff_exists.mp hrec
      rw [hq]
      rfl

theorem pyContains_eq_false {pat s : List Char} (hpat : pat ≠ [])
    (h : splitFirstAux pat s = none) : pyContains pat s = false := by
  rw [pyContains, isEmpty_false_of_ne_nil hpat, h]
  rfl

theorem pyContains_of_sfa {pat s : List Char}
    (h : (splitFirstAux pat s).isSome = true) : pyContains pat s = true := by
  rw [pyContains, h, Bool.or_true]

theorem sfa_of_pyContains {pat s : List Char} (hpat : pat ≠ [])
    (h : pyContains pat s = true) : ∃ b a, splitFirstAux pat s = some (b, a) := by
  rw [pyContains, isEmpty_false_of_ne_nil hpat, Bool.false_or] at h
  obtain ⟨⟨b, a⟩, hba⟩ := Option.isSome_iff_exists.mp h
  exact ⟨b, a, hba⟩

theorem pySplitGo_zero (pat s : List Char) : pySplitGo pat 0 s = [s] := rfl

theorem pySplitGo_nil (pat : List Char) : ∀ fuel, pySplitGo pat fuel [] = [[]] := by
  intro fuel
  cases fuel with
  | zero => rfl
  | succ f => rfl

theorem pySplitGo_succ_none {pat s : List Char} (f : Nat)
    (h : splitFirstAux pat s = none) : pySplitGo pat (f + 1) s = [s] := by
  rw [pySplitGo, h]

theorem pySplitGo_succ_some {pat s b a : List Char} (f : Nat)
    (h : splitFirstAux pat s = some (b, a)) :
    pySplitGo pat (f + 1) s = b :: pySplitGo pat f a := by
  rw [pySplitGo, h]

theorem pySplitGo_ne_nil (pat : List Char) (fuel : Nat) (s : List Char) :
    pySplitGo pat fuel s ≠ [] := by
  cases fuel with
  | zero => simp [pySplitGo_zero]
  | succ f =>
    cases hs : splitFirstAux pat s with
    | none => rw [pySplitGo_succ_none f hs]; simp
    | some q => rw [pySplitGo_succ_some f hs]; simp

theorem pySplitGo_stable {pat : List Char} (hpat : pat ≠ []) :
    ∀ fuel₁ fuel₂ s : _, s.length ≤ fuel₁ → s.length ≤ fuel₂ →
      pySplitGo pat fuel₁ s = pySplitGo pat fuel₂ s := by
  intro f1
  induction f1 with
  | zero =>
    intro f2 s h1 _
    rw [eq_nil_of_len_le_zero h1, pySplitGo_nil, pySplitGo_nil]
  | succ f ih =>
    intro f2 s h1 h2
    cases f2 with
    | zero =>
      rw [eq_nil_of_len_le_zero h2, pySplitGo_nil, pySplitGo_nil]
    | succ g =>
      cases hs : splitFirstAux pat s with
      | none => rw [pySplitGo_succ_none f hs, pySplitGo_succ_none g hs]
      | some q =>
        obtain ⟨b, a⟩ := q
        have hlt := sfa_shrink hpat hs
        rw [pySplitGo_succ_some f hs, pySplitGo_succ_some g hs,
          ih g a (by omega) (by omega)]

theorem pySplit_of_ne_nil {pat s : List Char} (hpat : pat ≠ []) :
    pySplit pat s = pySplitGo pat s.length s := by
  rw [pySplit, if_neg]
  simp [isEmpty_false_of_ne_nil hpat]

theorem pySplit_of_sfa_none {pat s : List Char} (hpat : pat ≠ [])
    (h : splitFirstAux pat s = none) : pySplit pat s = [s] := by
  rw [pySplit_of_ne_nil hpat]
  cases s with
  | nil => exact pySplitGo_nil pat 0
  | cons c cs => exact pySplitGo_succ_none cs.length h

theorem pySplit_of_sfa_some {pat s b a : List Char} (hpat : pat ≠ [])
    (h : splitFirstAux pat s = some (b, a)) : pySplit pat s = b :: pySplit pat a := by
  rw [pySplit_of_ne_nil hpat, pySplit_of_ne_nil hpat]
  have hlt := sfa_shrink hpat h
  obtain ⟨n, hn⟩ : ∃ n, s.length = n + 1 := ⟨s.length - 1, by omega⟩
  rw [hn, pySplitGo_succ_some n h,
    pySplitGo_stable hpat n a.length a (by omega) le_rfl]

theorem pySplit_ne_nil {pat s : List Char} : pySplit pat s ≠ [] := by
  rw [pySplit]
  by_cases he : pat.isEmpty
  · simp [he]
  · rw [if_neg (by simp [he])]
    exact pySplitGo_ne_nil pat s.length s

theorem catSep_cons {sep x : List Char} {l : List (List Char)} (h : l ≠ []) :
    catSep sep (x :: l) = x ++ sep ++ catSep sep l := by
  cases l with
  | nil => exact absurd rfl h
  | cons y ys => rfl

theorem getLastD_cons_of_ne_nil {x : List Char} {l : List (List Char)} (h : l ≠ []) :
    (x :: l).getLastD [] = l.getLastD [] := by
  cases l with
  | nil => exact absurd rfl h
  | cons y ys => simp [List.getLastD_cons]

theorem pySplit_join {pat : List Char} (hpat : pat ≠ []) :
    ∀ (n : Nat) (s : List Char), s.length ≤ n → catSep pat (pySplit pat s) = s := by
  intro n
  induction n with
  | zero =>
    intro s h
    rw [eq_nil_of_len_le_zero h, pySplit_of_sfa_none hpat (sfa_nil pat)]
    rfl
  | succ f ih =>
    intro s h
    cases hs : splitFirstAux pat s with
    | none => rw [pySplit_of_sfa_none hpat hs]; rfl
    | some q =>
      obtain ⟨b, a⟩ := q
      have hlt := sfa_shrink hpat hs
      rw [pySplit_of_sfa_some hpat hs, catSep_cons pySplit_ne_nil,
        ih a (by omega), ← sfa_join hpat hs]

theorem pySplit_last_free {pat : List Char} (hpat : pat ≠ []) :
    ∀ (n : Nat) (s : List Char), s.length ≤ n →
      splitFirstAux pat ((pySplit pat s).getLastD []) = none := by
  intro n
  induction n with
  | zero =>
    intro s h
    rw [eq_nil_of_len_le_zero h, pySplit_of_sfa_none hpat (sfa_nil pat)]
    rfl
  | succ f ih =>
    intro s h
    cases hs : splitFirstAux pat s with
    | none =>
      rw [pySplit_of_sfa_none hpat hs]
      simpa using hs
    | some q =>
      obtain ⟨b, a⟩ := q
      have hlt := sfa_shrink hpat hs
      rw [pySplit_of_sfa_some hpat hs, getLastD_cons_of_ne_nil pySplit_ne_nil]
      exact ih a (by omega)

theorem pySplit_last_decomp {pat : List Char} (hpat : pat ≠ []) :
    ∀ (n : Nat) (s : List Char), s.length ≤ n → pyContains pat s = true →
      ∃ u, s = u ++ pat ++ (pySplit pat s).getLastD [] := by
  intro n
  induction n with
  | zero =>
    intro s h hc
    obtain ⟨b, a, hba⟩ := sfa_of_pyContains hpat hc
    rw [eq_nil_of_len_le_zero h, sfa_nil] at hba
    exact Option.noConfusion hba
  | succ f ih =>
    intro s h hc
    obtain ⟨b, a, hs⟩ := sfa_of_pyContains hpat hc
    have hlt := sfa_shrink hpat hs
    rw [pySplit_of_sfa_some hpat hs, getLastD_cons_of_ne_nil pySplit_ne_nil]
    by_cases hca : pyContains pat a = true
    · obtain ⟨u', hu'⟩ := ih a (by omega) hca
      refine ⟨b ++ pat ++ u', ?_⟩
      conv_lhs => rw [sfa_join hpat hs, hu']
      simp [List.append_assoc]
    · have hnone : splitFirstAux pat a = none := by
        cases hsa : splitFirstAux pat a with
        | none => rfl
        | some q => exact absurd (pyContains_of_sfa (by rw [hsa]; rfl)) hca
      rw [pySplit_of_sfa_none hpat hnone]
      exact ⟨b, by simpa using sfa_join hpat hs⟩

/-! ### C1: include-path resolution -/

/-- C1 (amended): `get_include_path` returns the absolute path for an
empty prefix; when the slash-ensured prefix `P` occurs in the absolute
path it returns `P ++ t` where `t` is the `P`-free suffix left by
Python's left-to-right non-overlapping split (the suffix after the last
such occurrence of `P`), and otherwise `P ++ basename` where the
basename is the `'/'`-free suffix after the last `'/'` (the whole path
when it has no `'/'`). -/
theorem get_include_path_spec (absPath pre : List Char) :
    (ensureSlash pre = [] → get_include_path absPath pre = absPath) ∧
    (ensureSlash pre ≠ [] → pyContains (ensureSlash pre) absPath = true →
      ∃ u t, absPath = u ++ ensureSlash pre ++ t ∧
        pyContains (ensureSlash pre) t = false ∧
        get_include_path absPath pre = ensureSlash pre ++ t) ∧
    (ensureSlash pre ≠ [] → pyContains (ensureSlash pre) absPath = false →
      (pyContains ['/'] absPath = true →
        ∃ u t, absPath = u ++ ['/'] ++ t ∧ pyContains ['/'] t = false ∧
          get_include_path absPath pre = ensureSlash pre ++ t) ∧
      (pyContains ['/'] absPath = false →
        get_include_path absPath pre = ensureSlash pre ++ absPath)) := by
  refine ⟨?_, ?_, ?_⟩
  · intro h
    simp [get_include_path, h]
  · intro hne hc
    obtain ⟨u, hu⟩ :=
      pySplit_last_decomp hne absPath.length absPath le_rfl hc
    refine ⟨u, (pySplit (ensureSlash pre) absPath).getLastD [], hu, ?_, ?_⟩
    · exact pyContains_eq_false hne (pySplit_last_free hne absPath.length absPath le_rfl)
    · simp [get_include_path, hne, hc]
  · intro hne hc
    have hslash : (['/'] : List Char) ≠ [] := by simp
    constructor
    · intro hcs
      obtain ⟨u, hu⟩ := pySplit_last_decomp hslash absPath.length absPath le_rfl hcs
      refine ⟨u, (pySplit ['/'] absPath).getLastD [], hu, ?_, ?_⟩
      · exact pyContains_eq_false hslash
          (pySplit_last_free hslash absPath.length absPath le_rfl)
      · simp [get_include_path, hne, hc]
    · intro hcs
      have hnone : splitFirstAux ['/'] absPath = none := by
        cases hsa : splitFirstAux ['/'] absPath with
        | none => rfl
        | some q => exact absurd (pyContains_of_sfa (by rw [hsa]; rfl)) (by simp [hcs])
      simp [get_include_path, hne, hc, pySplit_of_sfa_none hslash hnone]

/-- Witness for C1's amended theorem at `prefix = "usr"`,
`path = "/usr/lib/x.h"`. -/
theorem get_include_path_spec_witness :
    ensureSlash "usr".toList ≠ [] ∧
    pyContains (ensureSlash "usr".toList) "/usr/lib/x.h".toList = true ∧
    ∃ u t, "/usr/lib/x.h".toList = u ++ ensureSlash "usr".toList ++ t ∧
      pyContains (ensureSlash "usr".toList) t = false ∧
      get_include_path "/usr/lib/x.h".toList "usr".toList = ensureSlash "usr".toList ++ t :=
  ⟨by decide, by decide,
    (get_include_path_spec "/usr/lib/x.h".toList "usr".toList).2.1 (by decide) (by decide)⟩

/-- C1 counterexample: with prefix `"usr"` and absolute path
`"/usr/lib/usr/x.h"` (the prefix occurs twice), the code returns
`"usr/x.h"` (suffix after the last occurrence) while the claim's
first-occurrence rule gives `"usr/lib/usr/x.h"`. -/
theorem get_include_path_first_occurrence_cex :
    get_include_path "/usr/lib/usr/x.h".toList "usr".toList = "usr/x.h".toList ∧
    includePathFirstOcc "/usr/lib/usr/x.h".toList "usr".toList = "usr/lib/usr/x.h".toList ∧
    get_include_path "/usr/lib/usr/x.h".toList "usr".toList ≠
      includePathFirstOcc "/usr/lib/usr/x.h".toList "usr".toList := by
  refine ⟨by decide, by decide, by decide⟩

/-! ### C2: header-guard derivation -/

theorem sfa_none_of_not_contains {pat s : List Char}
    (h : pyContains pat s = false) : splitFirstAux pat s = none := by
  cases hs : splitFirstAux pat s with
  | none => rfl
  | some q => exact absurd (pyContains_of_sfa (by rw [hs]; rfl)) (by simp [h])

theorem pySplit_head {pat : List Char} (hpat : pat ≠ []) (s : List Char) :
    (pySplit pat s).getD 0 [] = beforeFirst pat s := by
  cases hs : splitFirstAux pat s with
  | none => rw [pySplit_of_sfa_none hpat hs]; simp [beforeFirst, hs]
  | some q =>
    obtain ⟨b, a⟩ := q
    rw [pySplit_of_sfa_some hpat hs]
    simp [beforeFirst, hs]

theorem pySplit_getD_one {pat s b a : List Char} (hpat : pat ≠ [])
    (h : splitFirstAux pat s = some (b, a)) :
    (pySplit pat s).getD 1 [] = beforeFirst pat a := by
  rw [pySplit_of_sfa_some hpat h]
  have h1 : (b :: pySplit pat a).getD 1 [] = (pySplit pat a).getD 0 [] := rfl
  rw [h1, pySplit_head hpat]

/-- C2 (amended): for every non-empty path, `get_header_guard` keeps the
segment of the path strictly between the first and second occurrences of
`'genfiles/'` (the whole remainder when `'genfiles/'` occurs exactly
once); if that segment ends with `'.gen'` it keeps the part strictly
before the *first* occurrence of `'.gen'`; then it upper-cases, replaces
`.`, `-`, `/` with `_` and appends `_`. -/
theorem get_header_guard_spec (path : List Char) (h : path ≠ []) :
    get_header_guard path = headerGuardAmended path := by
  have hgf : genfilesSep ≠ [] := by decide
  have hdg : dotGen ≠ [] := by decide
  by_cases hc : pyContains genfilesSep path = true
  · obtain ⟨b, a, hs⟩ := sfa_of_pyContains hgf hc
    have e1 : (pySplit genfilesSep path).getD 1 [] = beforeFirst genfilesSep a :=
      pySplit_getD_one hgf hs
    have e2 : afterFirst genfilesSep path = a := by simp [afterFirst, hs]
    have e3 : (if pyContains genfilesSep (afterFirst genfilesSep path) = true
               then beforeFirst genfilesSep (afterFirst genfilesSep path)
               else afterFirst genfilesSep path) = beforeFirst genfilesSep a := by
      rw [e2]
      by_cases hca : pyContains genfilesSep a = true
      · rw [if_pos hca]
      · rw [if_neg hca]
        have hfb : pyContains genfilesSep a = false := by simpa using hca
        simp [beforeFirst, sfa_none_of_not_contains hfb]
    simp only [get_header_guard, headerGuardAmended, if_neg h, hc, if_true, e1, e3,
      pySplit_head hdg]
  · have hcf : pyContains genfilesSep path = false := by simpa using hc
    simp only [get_header_guard, headerGuardAmended, if_neg h, hcf, Bool.false_eq_true,
      if_false, pySplit_head hdg]

/-- Witness for C2's amended theorem at the spec's own examples. -/
theorem get_header_guard_spec_witness :
    get_header_guard "xx/genfiles/tmp/te-st.h.gen".toList =
      headerGuardAmended "xx/genfiles/tmp/te-st.h.gen".toList ∧
    get_header_guard "xx/genfiles/tmp/te-st.h.gen".toList = some "TMP_TE_ST_H_".toList ∧
    get_header_guard "xx/genfiles/.gen/tmp/te-st.h".toList =
      some "_GEN_TMP_TE_ST_H_".toList :=
  ⟨get_header_guard_spec "xx/genfiles/tmp/te-st.h.gen".toList (by decide),
    by decide, by decide⟩

/-- C2 counterexample: on `'a/genfiles/b/genfiles/c.h'` the code keeps
only `'b/'` (the segment between the two `'genfiles/'` occurrences,
yielding guard `'B__'`) while the claim's drop-the-prefix rule keeps
`'b/genfiles/c.h'` (yielding `'B_GENFILES_C_H_'`). -/
theorem get_header_guard_claim_cex :
    get_header_guard "a/genfiles/b/genfiles/c.h".toList = some "B__".toList ∧
    headerGuardClaim "a/genfiles/b/genfiles/c.h".toList = some "B_GENFILES_C_H_".toList ∧
    get_header_guard "a/genfiles/b/genfiles/c.h".toList ≠
      headerGuardClaim "a/genfiles/b/genfiles/c.h".toList :=
  ⟨by decide, by decide, by decide⟩

/-! ### C3: return-type rendering -/

theorem stripSubstr_of_none {pat s : List Char}
    (h : splitFirstAux pat s = none) : stripSubstr pat s = s := by
  induction s with
  | nil => simp [stripSubstr]
  | cons c cs ih =>
    rw [splitFirstAux] at h
    by_cases hp : pat.isPrefixOf (c :: cs)
    · rw [if_pos hp] at h
      exact Option.noConfusion h
    · rw [if_neg hp] at h
      have hrec : splitFirstAux pat cs = none := Option.map_eq_none'.mp h
      rw [stripSubstr, if_neg hp, ih hrec]

theorem stripSubstr_of_some {pat s b a : List Char}
    (h : splitFirstAux pat s = some (b, a)) :
    stripSubstr pat s = b ++ stripSubstr pat a := by
  induction s generalizing b a with
  | nil => rw [sfa_nil] at h; exact Option.noConfusion h
  | cons c cs ih =>
    rw [splitFirstAux] at h
    by_cases hp : pat.isPrefixOf (c :: cs)
    · rw [if_pos hp] at h
      simp only [Option.some.injEq, Prod.mk.injEq] at h
      obtain ⟨hb, ha⟩ := h
      subst hb; subst ha
      rw [stripSubstr, if_pos hp, List.nil_append]
    · rw [if_neg hp] at h
      obtain ⟨⟨b', a'⟩, hrec, heq⟩ := Option.map_eq_some'.mp h
      simp only [Prod.mk.injEq] at heq
      obtain ⟨hb, ha⟩ := heq
      subst hb; subst ha
      rw [stripSubstr, if_neg hp, ih hrec, List.cons_append]

theorem pyReplace_empty_eq_strip {pat : List Char} (hpat : pat ≠ []) :
    ∀ (n : Nat) (s : List Char), s.length ≤ n →
      pyReplace pat [] s = stripSubstr pat s := by
  intro n
  induction n with
  | zero =>
    intro s h
    rw [eq_nil_of_len_le_zero h, pyReplace, pySplit_of_sfa_none hpat (sfa_nil pat)]
    simp [catSep, stripSubstr]
  | succ f ih =>
    intro s h
    cases hs : splitFirstAux pat s with
    | none =>
      rw [pyReplace, pySplit_of_sfa_none hpat hs]
      exact (stripSubstr_of_none hs).symm
    | some q =>
      obtain ⟨b, a⟩ := q
      have hlt := sfa_shrink hpat hs
      rw [pyReplace, pySplit_of_sfa_some hpat hs, catSep_cons pySplit_ne_nil,
        List.append_nil]
      rw [stripSubstr_of_some hs]
      congr 1
      rw [← ih a (by omega), pyReplace]

/-- C3: `str` of a `ReturnType` is `absl::Status` when the wrapped type
is void, and otherwise `absl::StatusOr<S>` where `S` is the spelling
with `const` (every occurrence of the substring) stripped. -/
theorem return_type_str_spec (spelling : List Char) (isVoid : Bool) :
    ReturnType_str spelling isVoid = returnTypeSpec spelling isVoid := by
  cases isVoid with
  | true => rfl
  | false =>
    have hr := pyReplace_empty_eq_strip (show "const".toList ≠ [] by decide)
      spelling.length spelling le_rfl
    simp [ReturnType_str, returnTypeSpec]
    simpa using hr

/-! ### C4: argument rendering -/

/-- C4: for an `ArgumentType` with synthesized name `n`: a sugared
pointer has call argument `n` and renders as `'::sapi::v::Ptr* ' + n`;
any other type has call argument `'&' + n + '_'` and renders as
`spelling + ' ' + n`. -/
theorem argument_type_spec (a : ArgumentTypeM) :
    (a.isSugaredPtr = true →
      call_argument a = synthName a.givenName a.pos ∧
      ArgumentType_str a = "::sapi::v::Ptr* ".toList ++ synthName a.givenName a.pos) ∧
    (a.isSugaredPtr = false →
      call_argument a = "&".toList ++ synthName a.givenName a.pos ++ "_".toList ∧
      ArgumentType_str a = a.spelling ++ " ".toList ++ synthName a.givenName a.pos) := by
  constructor <;> intro h <;>
    simp [call_argument, ArgumentType_str, h]

/-- Witness for C4 at a value-typed `int` argument named `x`. -/
theorem argument_type_spec_witness :
    call_argument ⟨false, "int".toList, some "x".toList, 0⟩ = "&x_".toList ∧
    ArgumentType_str ⟨false, "int".toList, some "x".toList, 0⟩ = "int x".toList := by
  have h := (argument_type_spec ⟨false, "int".toList, some "x".toList, 0⟩).2 rfl
  exact ⟨h.1.trans (by decide), h.2.trans (by decide)⟩

/-! ### C5: unsupported-type errors in `mapped_type` -/

theorem pyContains_of_middle (x u v : List Char) : pyContains x (u ++ x ++ v) = true := by
  by_cases hx : x = []
  · subst hx; simp [pyContains]
  · exact pyContains_of_sfa (sfa_isSome_of_decomp hx u v _ rfl)

theorem pyContains_append_self (x v : List Char) : pyContains x (x ++ v) = true := by
  have h := pyContains_of_middle x [] v
  simpa using h

theorem pyContains_self (x : List Char) : pyContains x x = true := by
  have h := pyContains_of_middle x [] []
  simpa using h

theorem pyContains_append_left (x u s : List Char) (h : pyContains x s = true) :
    pyContains x (u ++ s) = true := by
  by_cases hx : x = []
  · subst hx; simp [pyContains]
  · obtain ⟨b, a, hba⟩ := sfa_of_pyContains hx h
    have hd := sfa_join hx hba
    have e : u ++ s = (u ++ b) ++ x ++ a := by rw [hd]; simp [List.append_assoc]
    rw [e]
    exact pyContains_of_middle x (u ++ b) a

theorem argErrSuffix_contains (fname : List Char) (pos : Nat) (sp loc : List Char) :
    pyContains fname (argErrSuffix fname pos sp loc) = true ∧
    pyContains (natDigits pos) (argErrSuffix fname pos sp loc) = true ∧
    pyContains sp (argErrSuffix fname pos sp loc) = true ∧
    pyContains loc (argErrSuffix fname pos sp loc) = true := by
  have e : argErrSuffix fname pos sp loc =
      fname ++ (", arg ".toList ++ (natDigits pos ++ (", type ".toList ++
        (sp ++ (", location ".toList ++ loc))))) := by
    simp [argErrSuffix, List.append_assoc]
  refine ⟨?_, ?_, ?_, ?_⟩ <;> rw [e]
  · exact pyContains_append_self _ _
  · exact pyContains_append_left _ _ _ (pyContains_append_left _ _ _
      (pyContains_append_self _ _))
  · exact pyContains_append_left _ _ _ (pyContains_append_left _ _ _
      (pyContains_append_left _ _ _ (pyContains_append_left _ _ _
        (pyContains_append_self _ _))))
  · exact pyContains_append_left _ _ _ (pyContains_append_left _ _ _
      (pyContains_append_left _ _ _ (pyContains_append_left _ _ _
        (pyContains_append_left _ _ _ (pyContains_append_left _ _ _
          (pyContains_self _))))))

theorem msg_contains_all {prefixPart fname : List Char} {pos : Nat} {sp loc m : List Char}
    (hm : m = prefixPart ++ argErrSuffix fname pos sp loc) :
    pyContains fname m = true ∧ pyContains (natDigits pos) m = true ∧
    pyContains sp m = true ∧ pyContains loc m = true := by
  obtain ⟨h1, h2, h3, h4⟩ := argErrSuffix_contains fname pos sp loc
  subst hm
  exact ⟨pyContains_append_left _ _ _ h1, pyContains_append_left _ _ _ h2,
    pyContains_append_left _ _ _ h3, pyContains_append_left _ _ _ h4⟩

/-- C5: for a non-pointer argument, `mapped_type` raises exactly when
the peeled kind is a record (passed by value) or a kind missing from
both the dedicated branches and the scalar table; the raised message
names the function, the argument position, the spelling and the
location.  All other kinds yield a wrapper string without raising. -/
theorem mapped_type_unsupported_spec (fname : List Char) (pos : Nat) (loc : List Char)
    (t : CType) (hptr : isSugaredPtr t = false)
    (hpeel : (peel t).kind ≠ TypeKind.elaborated) :
    ((peel t).kind = TypeKind.record ∨
        ((peel t).kind ∉ specialKinds ∧ TYPE_MAPPING (peel t).kind = none) →
      ∃ msg, mapped_type fname pos loc t = .error msg ∧
        pyContains fname msg = true ∧ pyContains (natDigits pos) msg = true ∧
        pyContains t.spelling msg = true ∧ pyContains loc msg = true) ∧
    (¬ ((peel t).kind = TypeKind.record ∨
        ((peel t).kind ∉ specialKinds ∧ TYPE_MAPPING (peel t).kind = none)) →
      ∃ s, mapped_type fname pos loc t = .ok s) := by
  constructor
  · intro hcond
    rcases hcond with hrec | ⟨hnotin, hmap⟩
    · refine ⟨unsupportedMsg fname pos t.spelling loc, ?_, ?_⟩
      · simp [mapped_type, hptr, hrec]
      · exact msg_contains_all rfl
    · simp only [specialKinds, List.mem_cons, List.not_mem_nil, or_false, not_or] at hnotin
      obtain ⟨h1, h2, h3, h4, h5, h6, h7⟩ := hnotin
      refine ⟨keyErrorMsg (peel t).kind fname pos t.spelling loc, ?_, ?_⟩
      · simp [mapped_type, hptr, h1, h2, h3, h4, h5, h6, h7, hmap]
      · exact msg_contains_all rfl
  · intro hn
    rw [not_or] at hn
    obtain ⟨hnrec, hn2⟩ := hn
    by_cases hmem : (peel t).kind ∈ specialKinds
    · simp only [specialKinds, List.mem_cons, List.not_mem_nil, or_false] at hmem
      rcases hmem with hk | hk | hk | hk | hk | hk | hk
      · simp [mapped_type, hptr, hk]
      · simp [mapped_type, hptr, hk]
      · simp [mapped_type, hptr, hk]
      · simp [mapped_type, hptr, hk]
      · simp [mapped_type, hptr, hk]
      · exact absurd hk hnrec
      · exact absurd hk hpeel
    · have hmap : TYPE_MAPPING (peel t).kind ≠ none := by
        intro hmn
        exact hn2 ⟨hmem, hmn⟩
      obtain ⟨m, hm⟩ := Option.ne_none_iff_exists'.mp hmap
      simp only [specialKinds, List.mem_cons, List.not_mem_nil, or_false, not_or] at hmem
      obtain ⟨h1, h2, h3, h4, h5, h6, h7⟩ := hmem
      exact ⟨m, by simp [mapped_type, hptr, h1, h2, h3, h4, h5, h6, h7, hm]⟩

/-- Witness for C5: an `int` argument maps without raising, and a
record-by-value argument raises with a message naming all four items. -/
theorem mapped_type_unsupported_spec_witness :
    (∃ s, mapped_type "f".toList 0 "t.h:1".toList ⟨TypeKind.int, "int".toList, none⟩ = .ok s) ∧
    (∃ msg,
      mapped_type "f".toList 0 "t.h:1".toList ⟨TypeKind.record, "struct s".toList, none⟩ =
        .error msg ∧
      pyContains "f".toList msg = true ∧ pyContains (natDigits 0) msg = true ∧
      pyContains (CType.spelling ⟨TypeKind.record, "struct s".toList, none⟩) msg = true ∧
      pyContains "t.h:1".toList msg = true) :=
  ⟨(mapped_type_unsupported_spec "f".toList 0 "t.h:1".toList
      ⟨TypeKind.int, "int".toList, none⟩ (by decide) (by decide)).2 (by decide),
    (mapped_type_unsupported_spec "f".toList 0 "t.h:1".toList
      ⟨TypeKind.record, "struct s".toList, none⟩ (by decide) (by decide)).1 (by decide)⟩

/-! ### C6: only extern-C (unmangled) functions are retained -/

theorem mem_dedupByMangled {f : FnM} :
    ∀ (seen : List (List Char)) (l : List FnM), f ∈ dedupByMangled seen l → f ∈ l := by
  intro seen l
  induction l generalizing seen with
  | nil => intro h; simp [dedupByMangled] at h
  | cons g gs ih =>
    intro h
    rw [dedupByMangled] at h
    by_cases hm : g.mangled ∈ seen
    · rw [if_pos hm] at h
      exact List.mem_cons_of_mem g (ih _ h)
    · rw [if_neg hm] at h
      rcases List.mem_cons.mp h with h1 | h2
      · rw [h1]; exact List.mem_cons_self g gs
      · exact List.mem_cons_of_mem g (ih _ h2)

/-- C6: every function in the list produced by `_get_functions` — and
hence every function emitted in the generated header — has a mangled
name equal to its spelling (C linkage); mangled functions never
appear. -/
theorem get_functions_unmangled (tus : List (List FnM)) (names : List (List Char))
    (f : FnM) (hf : f ∈ _get_functions tus names) : f.mangled = f.spelling := by
  rw [_get_functions, sortByName] at hf
  have h1 := (List.perm_insertionSort _ _).mem_iff.mp hf
  have h2 := mem_dedupByMangled _ _ h1
  have h3 := (List.mem_filter.mp h2).2
  simp [is_mangled] at h3
  exact h3

/-- Witness for C6: a mixed translation unit with one extern-C function
and one mangled function. -/
theorem get_functions_unmangled_witness :
    (⟨"f".toList, "f".toList, "u1".toList⟩ : FnM) ∈
      _get_functions [[⟨"f".toList, "f".toList, "u1".toList⟩,
        ⟨"g".toList, "_Zg".toList, "u2".toList⟩]] [] ∧
    (⟨"f".toList, "f".toList, "u1".toList⟩ : FnM).mangled =
      (⟨"f".toList, "f".toList, "u1".toList⟩ : FnM).spelling :=
  ⟨by decide, get_functions_unmangled
    [[⟨"f".toList, "f".toList, "u1".toList⟩, ⟨"g".toList, "_Zg".toList, "u2".toList⟩]] []
    ⟨"f".toList, "f".toList, "u1".toList⟩ (by decide)⟩

/-! ### C7: no type is emitted twice -/

theorem dedupTy_spec :
    ∀ (seen : List (List Char)) (l : List TyM),
      List.Pairwise (fun a b => a.usr ≠ b.usr) (dedupTy seen l) ∧
      ∀ t ∈ dedupTy seen l, t.usr ∉ seen := by
  intro seen l
  induction l generalizing seen with
  | nil => exact ⟨by simp [dedupTy], by simp [dedupTy]⟩
  | cons t ts ih =>
    rw [dedupTy]
    by_cases hm : t.usr ∈ seen
    · rw [if_pos hm]
      exact ih seen
    · rw [if_neg hm]
      obtain ⟨ihp, ihm⟩ := ih (t.usr :: seen)
      constructor
      · refine List.Pairwise.cons ?_ ihp
        intro b hb he
        exact (ihm b hb) (by rw [← he]; exact List.mem_cons_self _ _)
      · intro u hu
        rcases List.mem_cons.mp hu with h1 | h2
        · rw [h1]; exact hm
        · exact fun hc => (ihm u h2) (List.mem_cons_of_mem _ hc)

theorem sortByOrd_pairwise {l : List TyM}
    (h : List.Pairwise (fun a b => a.usr ≠ b.usr) l) :
    List.Pairwise (fun a b => a.usr ≠ b.usr) (sortByOrd l) := by
  exact ((List.perm_insertionSort (fun a b : TyM => a.ord ≤ b.ord) l).pairwise_iff
    (fun hxy => Ne.symm hxy)).mpr h

theorem mem_sortByOrd {t : TyM} {l : List TyM} : t ∈ sortByOrd l ↔ t ∈ l :=
  (List.perm_insertionSort _ _).mem_iff

theorem grtLoop_spec (fns : List (List TyM)) :
    ∀ processed : List (List Char),
      List.Pairwise (fun a b => a.usr ≠ b.usr) (grtLoop processed fns) ∧
      ∀ t ∈ grtLoop processed fns, t.usr ∉ processed := by
  induction fns with
  | nil =>
    intro processed
    exact ⟨by simp [grtLoop], by simp [grtLoop]⟩
  | cons rel rest ih =>
    intro processed
    obtain ⟨ihp, ihm⟩ := ih ((dedupTy [] rel).map TyM.usr ++ processed)
    rw [grtLoop]
    constructor
    · rw [List.pairwise_append]
      refine ⟨?_, ihp, ?_⟩
      · exact sortByOrd_pairwise ((dedupTy_spec [] rel).1.filter _)
      · intro a ha b hb
        have ha2 : a ∈ dedupTy [] rel := List.mem_of_mem_filter (mem_sortByOrd.mp ha)
        have hausr : a.usr ∈ (dedupTy [] rel).map TyM.usr := List.mem_map_of_mem _ ha2
        have hb' := ihm b hb
        intro he
        exact hb' (List.mem_append_left _ (he ▸ hausr))
    · intro u hu
      rcases List.mem_append.mp hu with h1 | h2
      · have hf := (List.mem_filter.mp (mem_sortByOrd.mp h1)).2
        simpa using hf
      · exact fun hc => (ihm u h2) (List.mem_append_right _ hc)

/-- C7: the list returned by `_get_related_types` contains no two
elements with the same USR — the same type definition is never emitted
twice. -/
theorem get_related_types_nodup (fns : List (List TyM)) (skips : List (List Char)) :
    List.Pairwise (fun a b => a.usr ≠ b.usr) (_get_related_types fns skips) := by
  rw [_get_related_types]
  exact (grtLoop_spec fns []).1.filter _

/-! ### C10: the functions cache ignores the filter of later calls -/

/-- C10: once `_get_functions` has been called with a name list `xs`,
any later call with any name list `ys` returns the identical cached
list (and leaves the generator state unchanged) — `ys` has no effect. -/
theorem get_functions_cached (g : GeneratorState) (xs ys : List (List Char)) :
    generator_get_functions (generator_get_functions g xs).2 ys =
      generator_get_functions g xs := by
  cases g with
  | mk fns tus =>
    cases fns with
    | some fs => rfl
    | none => rfl

/-! ### C8: macro search terminates, grows and is idempotent -/

theorem searchMacros_nil (defs : List (List Char × List (List Char)))
    (state : List (List Char)) : searchMacros defs state [] = [] := by
  rw [searchMacros]

theorem searchMacros_cons_none {defs : List (List Char × List (List Char))}
    {state : List (List Char)} {tok : List Char} {toks : List (List Char)}
    (h : List.lookup tok defs = none) :
    searchMacros defs state (tok :: toks) = searchMacros defs state toks := by
  rw [searchMacros]
  split
  · rfl
  · next body heq =>
    rw [h] at heq
    exact Option.noConfusion heq

theorem searchMacros_cons_mem {defs : List (List Char × List (List Char))}
    {state : List (List Char)} {tok : List Char} {toks : List (List Char)}
    {body : List (List Char)} (h : List.lookup tok defs = some body)
    (hm : tok ∈ state) :
    searchMacros defs state (tok :: toks) = searchMacros defs state toks := by
  rw [searchMacros]
  split
  · rfl
  · next body' heq =>
    rw [dif_pos hm]

theorem searchMacros_cons_new {defs : List (List Char × List (List Char))}
    {state : List (List Char)} {tok : List Char} {toks : List (List Char)}
    {body : List (List Char)} (h : List.lookup tok defs = some body)
    (hm : tok ∉ state) :
    searchMacros defs state (tok :: toks) =
      tok :: searchMacros defs (tok :: state) body ++
        searchMacros defs (searchMacros defs (tok :: state) body ++ tok :: state) toks := by
  rw [searchMacros]
  split
  · next heq =>
    rw [h] at heq
    exact Option.noConfusion heq
  · next body' heq =>
    rw [h] at heq
    obtain rfl : body = body' := Option.some.inj heq
    rw [dif_neg hm]

theorem mem_keys_of_lookup {defs : List (List Char × List (List Char))} {tok : List Char}
    {body : List (List Char)} (h : List.lookup tok defs = some body) :
    tok ∈ defs.map Prod.fst := by
  have h2 : (List.lookup tok defs).isSome := by rw [h]; rfl
  rw [List.lookup_isSome_iff] at h2
  obtain ⟨p, hp, he⟩ := h2
  have he' : tok = p.1 := by simpa using he
  rw [he']
  exact List.mem_map_of_mem Prod.fst hp

theorem filterKeys_lt (defs : List (List Char × List (List Char)))
    {state : List (List Char)} {tok : List Char}
    (hk : tok ∈ defs.map Prod.fst) (hs : tok ∉ state) (s2 : List (List Char))
    (hsub : ∀ x, x ∈ state → x ∈ s2) (htok : tok ∈ s2) :
    ((defs.map Prod.fst).filter (fun k => decide (k ∉ s2))).length <
      ((defs.map Prod.fst).filter (fun k => decide (k ∉ state))).length := by
  have hsl := @List.monotone_filter_right _ (defs.map Prod.fst)
    (fun k => decide (k ∉ s2)) (fun k => decide (k ∉ state))
    (by
      intro a ha
      rw [decide_eq_true_eq] at ha ⊢
      exact fun hc => ha (hsub a hc))
  have hmt : tok ∈ (defs.map Prod.fst).filter (fun k => decide (k ∉ state)) :=
    List.mem_filter.mpr ⟨hk, by simpa using hs⟩
  have hnt : tok ∉ (defs.map Prod.fst).filter (fun k => decide (k ∉ s2)) := by
    intro hcon
    have h2 := (List.mem_filter.mp hcon).2
    rw [decide_eq_true_eq] at h2
    exact h2 htok
  rcases Nat.eq_or_lt_of_le hsl.length_le with heq | hlt
  · exact absurd (hsl.eq_of_length heq ▸ hmt) hnt
  · exact hlt

theorem searchMacros_eq_nil_of_covered (defs : List (List Char × List (List Char)))
    (state : List (List Char)) :
    ∀ toks : List (List Char),
      (∀ t ∈ toks, (List.lookup t defs).isSome = true → t ∈ state) →
      searchMacros defs state toks = [] := by
  intro toks
  induction toks with
  | nil => intro _; exact searchMacros_nil defs state
  | cons u us ih =>
    intro hcov
    cases hl : List.lookup u defs with
    | none =>
      rw [searchMacros_cons_none hl]
      exact ih (fun t ht hx => hcov t (List.mem_cons_of_mem _ ht) hx)
    | some body =>
      have hus : u ∈ state := hcov u (List.mem_cons_self _ _) (by rw [hl]; rfl)
      rw [searchMacros_cons_mem hl hus]
      exact ih (fun t ht hx => hcov t (List.mem_cons_of_mem _ ht) hx)

theorem searchMacros_covers (defs : List (List Char × List (List Char))) :
    ∀ (n : Nat) (state toks : List (List Char)),
      ((defs.map Prod.fst).filter (fun k => decide (k ∉ state))).length ≤ n →
      ∀ t ∈ toks, (List.lookup t defs).isSome = true →
        t ∈ searchMacros defs state toks ++ state := by
  intro n
  induction n with
  | zero =>
    intro state toks hb t ht hsome
    obtain ⟨body, hb'⟩ := Option.isSome_iff_exists.mp hsome
    have hkt : t ∈ defs.map Prod.fst := mem_keys_of_lookup hb'
    have hts : t ∈ state := by
      by_contra hns
      have hmem : t ∈ (defs.map Prod.fst).filter (fun k => decide (k ∉ state)) :=
        List.mem_filter.mpr ⟨hkt, by simpa using hns⟩
      have hpos := List.length_pos.mpr (List.ne_nil_of_mem hmem)
      omega
    exact List.mem_append_right _ hts
  | succ n ih =>
    intro state toks hb
    induction toks with
    | nil => intro t ht; simp at ht
    | cons u us ihu =>
      intro t ht hsome
      cases hl : List.lookup u defs with
      | none =>
        rw [searchMacros_cons_none hl]
        rcases List.mem_cons.mp ht with rfl | hts
        · rw [hl] at hsome
          simp at hsome
        · exact ihu t hts hsome
      | some body =>
        by_cases hm : u ∈ state
        · rw [searchMacros_cons_mem hl hm]
          rcases List.mem_cons.mp ht with rfl | hts
          · exact List.mem_append_right _ hm
          · exact ihu t hts hsome
        · rw [searchMacros_cons_new hl hm]
          rcases List.mem_cons.mp ht with rfl | hts
          · exact List.mem_append_left _ (List.mem_cons_self _ _)
          · have hstep := filterKeys_lt defs (mem_keys_of_lookup hl) hm
              (searchMacros defs (u :: state) body ++ u :: state)
              (fun x hx => List.mem_append_right _ (List.mem_cons_of_mem _ hx))
              (List.mem_append_right _ (List.mem_cons_self _ _))
            have hble : ((defs.map Prod.fst).filter
                (fun k => decide (k ∉ searchMacros defs (u :: state) body ++ u :: state))).length
                ≤ n := by omega
            have hmem := ih (searchMacros defs (u :: state) body ++ u :: state) us hble
              t hts hsome
            simp only [List.mem_append, List.mem_cons] at hmem ⊢
            tauto


/-- C8: `search_for_macro_name` terminates (its embedding is a total
function defined by well-founded recursion on the unseen macro names),
`required_defines` only gains elements and never loses any, and a second
call with the same cursor's tokens adds nothing (idempotence). -/
theorem search_for_macro_name_spec (defs : List (List Char × List (List Char)))
    (state toks : List (List Char)) :
    (∀ x ∈ state, x ∈ runSearch defs state toks) ∧
    runSearch defs (runSearch defs state toks) toks = runSearch defs state toks := by
  constructor
  · intro x hx
    exact List.mem_append_right _ hx
  · have hcov : ∀ t ∈ toks, (List.lookup t defs).isSome = true →
        t ∈ runSearch defs state toks := by
      intro t ht hs
      exact searchMacros_covers defs
        (((defs.map Prod.fst).filter (fun k => decide (k ∉ state))).length)
        state toks le_rfl t ht hs
    have hnil := searchMacros_eq_nil_of_covered defs (runSearch defs state toks) toks hcov
    rw [runSearch, hnil]
    simp

/-- Witness for C8: two chained macros `M → N`, a token list mentioning
`M` and an unknown token, and a pre-seeded state. -/
theorem search_for_macro_name_spec_witness :
    ("Q".toList ∈ runSearch [("N".toList, ["5".toList]), ("M".toList, ["N".toList])]
      ["Q".toList] ["M".toList, "x".toList]) ∧
    runSearch [("N".toList, ["5".toList]), ("M".toList, ["N".toList])]
      (runSearch [("N".toList, ["5".toList]), ("M".toList, ["N".toList])] ["Q".toList]
        ["M".toList, "x".toList]) ["M".toList, "x".toList] =
      runSearch [("N".toList, ["5".toList]), ("M".toList, ["N".toList])] ["Q".toList]
        ["M".toList, "x".toList] :=
  ⟨(search_for_macro_name_spec [("N".toList, ["5".toList]), ("M".toList, ["N".toList])]
      ["Q".toList] ["M".toList, "x".toList]).1 "Q".toList (by simp),
    (search_for_macro_name_spec [("N".toList, ["5".toList]), ("M".toList, ["N".toList])]
      ["Q".toList] ["M".toList, "x".toList]).2⟩

/-! ### C9: token stringification -/

theorem processToken_define (st : OutputLineState) (s : List Char) :
    (processToken st s).define = (st.define || decide (s = ['#'])) := by
  by_cases h1 : s = ['#'] <;> by_cases h2 : s = ['{'] <;> by_cases h3 : s = ['}'] <;>
    simp [processToken, h1, h2, h3, apply_ite OutputLineState.define]

theorem processToken_tab (st : OutputLineState) (s : List Char) :
    (processToken st s).tab = st.tab - (if s = ['}'] then 1 else 0) := by
  by_cases h1 : s = ['#'] <;> by_cases h2 : s = ['{'] <;> by_cases h3 : s = ['}'] <;>
    simp [processToken, h1, h2, h3, apply_ite OutputLineState.tab]

theorem processToken_next_tab (st : OutputLineState) (s : List Char) :
    (processToken st s).next_tab =
      st.next_tab + (if s = ['{'] then 1 else 0) - (if s = ['}'] then 1 else 0) := by
  by_cases h1 : s = ['#'] <;> by_cases h2 : s = ['{'] <;> by_cases h3 : s = ['}'] <;>
    simp [processToken, h1, h2, h3, apply_ite OutputLineState.next_tab]

theorem processToken_spellings (st : OutputLineState) (s : List Char)
    (h : st.spellings ≠ []) :
    (processToken st s).spellings =
      st.spellings ++
        (if s = ['('] ∨ st.spellings = [['#']] then [] else [[' ']]) ++ [s] := by
  by_cases h1 : s = ['#'] <;> by_cases h2 : s = ['{'] <;> by_cases h3 : s = ['}'] <;>
    by_cases h4 : s = ['('] <;> by_cases h5 : st.spellings = [['#']] <;>
    simp [processToken, h1, h2, h3, h4, h5, h]

theorem processToken_spellings_nil (st : OutputLineState) (s : List Char)
    (h : st.spellings = []) : (processToken st s).spellings = [s] := by
  by_cases h1 : s = ['#'] <;> by_cases h2 : s = ['{'] <;> by_cases h3 : s = ['}'] <;>
    simp [processToken, h1, h2, h3, h]

theorem foldl_define (sps : List (List Char)) :
    ∀ st : OutputLineState,
      (sps.foldl processToken st).define = (st.define || decide (['#'] ∈ sps)) := by
  induction sps with
  | nil => intro st; simp
  | cons s rest ih =>
    intro st
    rw [List.foldl_cons, ih, processToken_define]
    by_cases hs : s = ['#'] <;> by_cases hm : ['#'] ∈ rest <;> simp [hs, hm, eq_comm]

theorem foldl_tab (sps : List (List Char)) :
    ∀ st : OutputLineState,
      (sps.foldl processToken st).tab = st.tab - countTok ['}'] sps := by
  induction sps with
  | nil => intro st; simp [countTok]
  | cons s rest ih =>
    intro st
    rw [List.foldl_cons, ih, processToken_tab]
    by_cases hs : s = ['}'] <;> simp [countTok, List.filter_cons, hs] <;> omega

theorem foldl_next_tab (sps : List (List Char)) :
    ∀ st : OutputLineState,
      (sps.foldl processToken st).next_tab =
        st.next_tab + countTok ['{'] sps - countTok ['}'] sps := by
  induction sps with
  | nil => intro st; simp [countTok]
  | cons s rest ih =>
    intro st
    rw [List.foldl_cons, ih, processToken_next_tab]
    by_cases h2 : s = ['{'] <;> by_cases h3 : s = ['}'] <;>
      simp [countTok, List.filter_cons, h2, h3] <;> omega

theorem foldl_spellings (rest : List (List Char)) :
    ∀ st : OutputLineState, st.spellings ≠ [] →
      ((rest.foldl processToken st).spellings).flatten =
        st.spellings.flatten ++ specJoinRest (decide (st.spellings = [['#']])) rest := by
  induction rest with
  | nil => intro st _; simp [specJoinRest]
  | cons s rs ih =>
    intro st h
    rw [List.foldl_cons]
    have hsp := processToken_spellings st s h
    by_cases hc : s = ['('] ∨ st.spellings = [['#']]
    · rw [if_pos hc] at hsp
      have hne : (processToken st s).spellings ≠ [] := by rw [hsp]; simp
      rw [ih _ hne, hsp]
      have hflag : (st.spellings ++ [] ++ [s] : List (List Char)) ≠ [['#']] := by
        intro hcon
        have hlen := congrArg List.length hcon
        simp at hlen
        exact h hlen
      rw [decide_eq_false hflag]
      rw [specJoinRest, if_pos ?hcond]
      case hcond =>
        rcases hc with hc1 | hc2
        · exact Or.inl hc1
        · exact Or.inr (by simp [hc2])
      simp [List.flatten_append, List.append_assoc]
    · push_neg at hc
      rw [if_neg (by rintro (hc1 | hc2); exact hc.1 hc1; exact hc.2 hc2)] at hsp
      have hne : (processToken st s).spellings ≠ [] := by rw [hsp]; simp
      rw [ih _ hne, hsp]
      have hflag : (st.spellings ++ [[' ']] ++ [s] : List (List Char)) ≠ [['#']] := by
        intro hcon
        have hlen := congrArg List.length hcon
        have hpos := List.length_pos.mpr h
        simp at hlen
      rw [decide_eq_false hflag]
      rw [specJoinRest, if_neg ?hcond]
      case hcond =>
        rintro (hc1 | hc2)
        · exact hc.1 hc1
        · rw [decide_eq_true_eq] at hc2
          exact hc.2 hc2
      simp [List.flatten_append, List.append_assoc]

theorem mkOutputLine_next_tab (tab : Int) (g : List Tok) :
    (mkOutputLine tab g).next_tab = specNextTab tab (g.map Tok.spelling) := by
  rw [mkOutputLine, foldl_next_tab]
  rfl

theorem mkOutputLine_str (tab : Int) (g : List Tok) :
    OutputLine_str (mkOutputLine tab g) = specLineRender tab (g.map Tok.spelling) := by
  rw [OutputLine_str, specLineRender, mkOutputLine]
  have hdef := foldl_define (g.map Tok.spelling) ⟨[], false, tab, tab⟩
  have htab := foldl_tab (g.map Tok.spelling) ⟨[], false, tab, tab⟩
  have hflat : (((g.map Tok.spelling).foldl processToken
      ⟨[], false, tab, tab⟩).spellings).flatten = specJoin (g.map Tok.spelling) := by
    cases hsps : g.map Tok.spelling with
    | nil => simp [specJoin]
    | cons s rs =>
      rw [List.foldl_cons]
      have hps := processToken_spellings_nil ⟨[], false, tab, tab⟩ s rfl
      rw [foldl_spellings rs _ (by rw [hps]; simp), hps]
      rw [specJoin]
      have heq : (decide (([s] : List (List Char)) = [['#']])) = decide (s = ['#']) := by
        by_cases hs : s = ['#'] <;> simp [hs]
      rw [heq]
      simp
  rw [hdef, htab, hflat]
  congr 1
  by_cases hm : ['#'] ∈ g.map Tok.spelling <;> simp [hm]

theorem stringifyLines_eq :
    ∀ (gs : List (List Tok)) (tab : Int), stringifyLines tab gs = specLines tab gs := by
  intro gs
  induction gs with
  | nil => intro tab; rfl
  | cons g gs' ih =>
    intro tab
    rw [stringifyLines, specLines, mkOutputLine_str, mkOutputLine_next_tab, ih]

/-- C9: `_stringify_tokens` groups adjacent tokens by source line and
renders them line by line: each line starts at the previous line's
`next_tab`; a `#` token marks the line as preprocessor; each `{`
increments `next_tab`, each `}` decrements both `tab` and `next_tab`;
spellings are joined with single spaces except before `(` and after a
leading `#`; and `tab` leading tabs are emitted only on
non-preprocessor lines. -/
theorem stringify_tokens_spec (sep : List Char) (tokens : List Tok) :
    _stringify_tokens sep tokens = specStringify sep tokens := by
  rw [_stringify_tokens, specStringify, stringifyLines_eq]

end SapiGen
